import Mathlib

/-!
Shallow embedding of the `keybind` package (keyboard-mapping resolution layer
of fyne-io/xgbutil): the mapping cache data model, the resolver operations
(`ParseString`, `lookupString`, `keycodeGet`, `keysymGet`, `modGet`), the
mapping refresh (`mapsGet`) and the diagnostic dump (`XModMap`).

Machine integers of the source (byte, uint16, uint32/Keysym) are modelled as
`Nat`; none of the verified paths overflows: keycodes stay below 256 because
the server-reported `max` is a byte, modifier masks are ORs of fixed bits
below 2^16, and keysyms are only compared for equality.  The byte loop
counter of `modGet` is the one place where the width matters; theorems about
`modGet` therefore carry the hypothesis that the slot table has at most 255
entries, under which the byte counter never wraps and the loop is the plain
linear scan modelled here.  A Go `panic` / out-of-range slice access is
modelled as `Option.none`.
-/

namespace Keybind

/-- A keysym (`xgb.Keysym`, uint32 in the source). -/
abbrev Keysym := Nat

/-- `xgb.GetKeyboardMappingReply`: columns per keycode and the flat keysym
table indexed by `(keycode - min) * keysymsPerKeycode + column`. -/
structure KeyboardMapping where
  keysymsPerKeycode : Nat
  keysyms : List Keysym
  deriving Repr, DecidableEq

/-- `xgb.GetModifierMappingReply`: keycodes per modifier and the flat slot
table of keycodes (8 rows, one per real modifier). -/
structure ModifierMapping where
  keycodesPerModifier : Nat
  keycodes : List Nat
  deriving Repr, DecidableEq

/-- The state the resolver reads: the server-reported min/max keycode range
(`xu.Conn().Setup`), the cached keyboard and modifier mappings
(`xu.KeyMapGet()` / `xu.ModMapGet()`), and the static name → keysym symbol
table (the package-level `keysyms` map, defined in a source file outside
`src/`; it is carried as data here so lookups can be stated for any table). -/
structure XState where
  minKeycode : Nat
  maxKeycode : Nat
  keyMap : KeyboardMapping
  modMap : ModifierMapping
  keysymTable : List (String × Keysym)
  deriving Repr

/-- The xgb modifier-mask constants used by the source. -/
def ModMaskShift : Nat := 1
def ModMaskLock : Nat := 2
def ModMaskControl : Nat := 4
def ModMask1 : Nat := 8
def ModMask2 : Nat := 16
def ModMask3 : Nat := 32
def ModMask4 : Nat := 64
def ModMask5 : Nat := 128
def ModMaskAny : Nat := 32768

/-- The package-level `modifiers` slice (order matters!): Shift, Lock,
Control, Mod1..Mod5, Any. -/
def modifiers : List Nat :=
  [ModMaskShift, ModMaskLock, ModMaskControl,
   ModMask1, ModMask2, ModMask3, ModMask4, ModMask5,
   ModMaskAny]

/-- The index `(int(keycode) - int(min)) * int(keysymsPerKeycode) + int(column)`
computed by `keysymGet`; an `Int` because the Go subtraction can go negative. -/
def keysymIndex (xu : XState) (keycode column : Nat) : Int :=
  ((keycode : Int) - (xu.minKeycode : Int)) * (xu.keyMap.keysymsPerKeycode : Int)
    + (column : Int)

/-- `keysymGet`: the keysym stored for `keycode` at `column`.  The source
indexes `keyMap.Keysyms[i]` directly; an out-of-range index panics, modelled
as `none`. -/
def keysymGet (xu : XState) (keycode column : Nat) : Option Keysym :=
  let i := keysymIndex xu keycode column
  if h : 0 ≤ i ∧ i.toNat < xu.keyMap.keysyms.length then
    some (xu.keyMap.keysyms.get ⟨i.toNat, h.2⟩)
  else
    none

/-- `keycodeGet`: scan keycodes `min..max` ascending and, within each,
columns `0..keysymsPerKeycode-1` ascending; return the first keycode one of
whose columns holds `keysym`, else 0. -/
def keycodeGet (xu : XState) (keysym : Keysym) : Nat :=
  match (List.range' xu.minKeycode (xu.maxKeycode + 1 - xu.minKeycode)).find?
      (fun kc => (List.range xu.keyMap.keysymsPerKeycode).any
        (fun c => keysymGet xu kc c == some keysym)) with
  | some kc => kc
  | none => 0

/-- `modGet`: scan the modifier slot table ascending; at the first slot whose
value equals `keycode` return `modifiers[i / keycodesPerModifier]`; if no
slot matches return 0.  A zero `keycodesPerModifier` (division by zero) or a
row index beyond the `modifiers` array panics in Go, modelled as `none`. -/
def modGet (xu : XState) (keycode : Nat) : Option Nat :=
  match (List.range xu.modMap.keycodes.length).find?
      (fun i => xu.modMap.keycodes.getD i 0 == keycode) with
  | some i =>
      if xu.modMap.keycodesPerModifier = 0 then none
      else modifiers.get? (i / xu.modMap.keycodesPerModifier)
  | none => some 0

/-- `strings.ToLower` (ASCII; key names and modifier tokens are ASCII). -/
def goToLower (s : String) : String := String.mk (s.data.map Char.toLower)

/-- `strings.ToUpper` (ASCII). -/
def goToUpper (s : String) : String := String.mk (s.data.map Char.toUpper)

/-- Go's `isSeparator` used by `strings.Title`, restricted to ASCII: ASCII
alphanumerics and underscore are not separators, everything else is. -/
def goIsSeparator (c : Char) : Bool := !(c.isAlphanum || c == '_')

/-- Body of `strings.Title`: map each rune to title case when the previous
rune is a separator, leaving all other runes unchanged. -/
def goTitleAux : Char → List Char → List Char
  | _, [] => []
  | prev, c :: rest =>
      (if goIsSeparator prev then c.toUpper else c) :: goTitleAux c rest

/-- `strings.Title` (ASCII): upper-cases the first letter of every word and
leaves every other character unchanged (it does NOT lower-case the rest). -/
def goTitle (s : String) : String := ⟨goTitleAux ' ' s.data⟩

/-- Lookup in the `keysyms` Go map (keys are unique). -/
def tableLookup (tbl : List (String × Keysym)) (name : String) : Option Keysym :=
  match tbl.find? (fun p => p.1 == name) with
  | some p => some p.2
  | none => none

/-- The four-step case-folding fallback of `lookupString`: exact match, then
`strings.Title`, then `strings.ToLower`, then `strings.ToUpper`; first hit
wins. -/
def keysymLookup (tbl : List (String × Keysym)) (str : String) : Option Keysym :=
  match tableLookup tbl str with
  | some sym => some sym
  | none =>
    match tableLookup tbl (goTitle str) with
    | some sym => some sym
    | none =>
      match tableLookup tbl (goToLower str) with
      | some sym => some sym
      | none => tableLookup tbl (goToUpper str)

/-- `lookupString`: resolve a name through the symbol table (four-step case
fallback) and then through `keycodeGet`; 0 when the name is unknown. -/
def lookupString (xu : XState) (str : String) : Nat :=
  match keysymLookup xu.keysymTable str with
  | none => 0
  | some sym => keycodeGet xu sym

/-- `strings.Split(str, "-")` for the single-character separator: the
accumulator holds the current token reversed. -/
def splitDashAux : List Char → List Char → List String
  | acc, [] => [String.mk acc.reverse]
  | acc, c :: rest =>
      if c = '-' then String.mk acc.reverse :: splitDashAux [] rest
      else splitDashAux (c :: acc) rest

/-- `strings.Split(str, "-")`. -/
def splitDash (str : String) : List String := splitDashAux [] str.data

/-- The `switch strings.ToLower(part)` of `ParseString`: the modifier mask a
token names, or `none` for the default branch. -/
def modMaskOfToken (part : String) : Option Nat :=
  match goToLower part with
  | "shift" => some ModMaskShift
  | "lock" => some ModMaskLock
  | "control" => some ModMaskControl
  | "mod1" => some ModMask1
  | "mod2" => some ModMask2
  | "mod3" => some ModMask3
  | "mod4" => some ModMask4
  | "mod5" => some ModMask5
  | "any" => some ModMaskAny
  | _ => none

/-- The `for _, part := range strings.Split(str, "-")` loop of `ParseString`,
carrying the `mods` and `kc` accumulators. -/
def parseLoop (xu : XState) : List String → Nat → Nat → Nat × Nat
  | [], mods, kc => (mods, kc)
  | part :: rest, mods, kc =>
    match modMaskOfToken part with
    | some m => parseLoop xu rest (mods ||| m) kc
    | none =>
        -- default branch: only accept the first keycode we see
        parseLoop xu rest mods (if kc = 0 then lookupString xu part else kc)

/-- `ParseString`: split on '-', accumulate modifier bits and a keycode.  The
third component records whether the `log.Printf` warning fires (exactly when
the resulting keycode is 0). -/
def ParseString (xu : XState) (str : String) : Nat × Nat × Bool :=
  let r := parseLoop xu (splitDash str) 0 0
  (r.1, r.2, r.2 == 0)

/-- `mapsGet`: fetch both replies; panic (modelled as `none`) if either query
returned an error, otherwise return both replies. -/
def mapsGet (keyRes : Except String KeyboardMapping)
    (modRes : Except String ModifierMapping) :
    Option (KeyboardMapping × ModifierMapping) :=
  match keyRes with
  | .error _ => none
  | .ok newKeymap =>
    match modRes with
    | .error _ => none
    | .ok newModmap => some (newKeymap, newModmap)

/-- The `nice` names printed by `XModMap`, one per real modifier row. -/
def niceNames : List String :=
  ["shift", "lock", "control", "mod1", "mod2", "mod3", "mod4", "mod5"]

/-- The two-column fallback of `XModMap`: the keysym at column 0, or the
keysym at column 1 when column 0 holds the null symbol 0. -/
def xmodmapSym (xu : XState) (kc : Nat) : Option Keysym :=
  match keysymGet xu kc 0 with
  | none => none
  | some ksym => if ksym = 0 then keysymGet xu kc 1 else some ksym

/-- One row of `XModMap`'s output, as data: the bound keycodes of the slice
`modMap.Keycodes[row : row+kPerMod]` (slots holding 0 are skipped), each with
its displayed keysym. -/
def xmodmapRow (xu : XState) (mmi : Nat) : List (Nat × Option Keysym) :=
  let kPerMod := xu.modMap.keycodesPerModifier
  ((xu.modMap.keycodes.drop (mmi * kPerMod)).take kPerMod).filterMap
    (fun kc => if kc = 0 then none else some (kc, xmodmapSym xu kc))

/-- `XModMap` as data: one `(nice name, bound entries)` pair per modifier row,
iterating `modifiers[:len(modifiers)-1]` (the wildcard `Any` row is skipped).
The source renders each keysym through the reverse name table `strKeysyms`;
that is display-only and the keysym itself is kept here. -/
def XModMap (xu : XState) : List (String × List (Nat × Option Keysym)) :=
  (List.range (modifiers.length - 1)).map
    (fun mmi => (niceNames.getD mmi "", xmodmapRow xu mmi))

/-! ### Spec-side definitions

These follow the spec's wording (not the source) and are only compared with
the source-shaped definitions above. -/

/-- Spec wording: each token matching a modifier name ORs that bit into the
mask (tokens matching no modifier name contribute nothing to the mask). -/
def specMask (parts : List String) : Nat :=
  parts.foldl
    (fun m t => match modMaskOfToken t with
      | some b => m ||| b
      | none => m) 0

/-- Amended-spec wording for the keycode component: non-modifier tokens are
resolved in order until one yields a nonzero keycode; that first nonzero
resolution is the result (0 when none resolves). -/
def specKeycode (xu : XState) : List String → Nat
  | [] => 0
  | t :: rest =>
    match modMaskOfToken t with
    | some _ => specKeycode xu rest
    | none =>
        if lookupString xu t = 0 then specKeycode xu rest else lookupString xu t

/-- Spec wording for the four-step fallback: the first hit among the attempts,
tried in the given order. -/
def firstSome : List (Option Keysym) → Option Keysym
  | [] => none
  | some v :: _ => some v
  | none :: rest => firstSome rest

/-! ### Helper lemmas about `List.find?` over ascending ranges -/

theorem find?_range'_none {p : Nat → Bool} {s n : Nat}
    (h : (List.range' s n).find? p = none) {k : Nat} (h1 : s ≤ k)
    (h2 : k < s + n) : p k = false := by
  have := List.find?_eq_none.mp h k (List.mem_range'_1.mpr ⟨h1, h2⟩)
  simpa using this

theorem find?_range'_some {p : Nat → Bool} :
    ∀ {n s k : Nat}, (List.range' s n).find? p = some k →
      s ≤ k ∧ k < s + n ∧ p k = true ∧ ∀ j, s ≤ j → j < k → p j = false := by
  intro n
  induction n with
  | zero => intro s k h; simp [List.range'] at h
  | succ n ih =>
    intro s k h
    rw [List.range'_succ] at h
    by_cases hp : p s
    · rw [List.find?_cons_of_pos _ hp] at h
      obtain rfl : s = k := by simpa using h
      exact ⟨Nat.le_refl _, by omega, hp, fun j hj1 hj2 => absurd hj1 (by omega)⟩
    · rw [List.find?_cons_of_neg _ hp] at h
      obtain ⟨h1, h2, h3, h4⟩ := ih h
      refine ⟨by omega, by omega, h3, ?_⟩
      intro j hj1 hj2
      rcases Nat.eq_or_lt_of_le hj1 with heq | hlt
      · subst heq; simpa using hp
      · exact h4 j hlt hj2

/-- If `k` is in range, satisfies `p`, and every smaller in-range index
fails `p`, then the scan finds exactly `k`. -/
theorem find?_range'_at {p : Nat → Bool} {n s k : Nat} (h1 : s ≤ k)
    (h2 : k < s + n) (h3 : p k = true)
    (h4 : ∀ j, s ≤ j → j < k → p j = false) :
    (List.range' s n).find? p = some k := by
  cases hf : (List.range' s n).find? p with
  | none => exact absurd (find?_range'_none hf h1 h2) (by simp [h3])
  | some k2 =>
    obtain ⟨g1, g2, g3, g4⟩ := find?_range'_some hf
    rcases Nat.lt_trichotomy k2 k with hlt | heq | hgt
    · exact absurd g3 (by simp [h4 k2 g1 hlt])
    · rw [heq]
    · exact absurd h3 (by simp [g4 k h1 hgt])

/-! ### Characterization helpers for the resolver -/

/-- Some column of `kc` (within the column range) holds `sym`. -/
def hasSymAt (xu : XState) (sym : Keysym) (kc : Nat) : Prop :=
  ∃ j < xu.keyMap.keysymsPerKeycode, keysymGet xu kc j = some sym

theorem anyCol_iff (xu : XState) (sym : Keysym) (kc : Nat) :
    ((List.range xu.keyMap.keysymsPerKeycode).any
      (fun c => keysymGet xu kc c == some sym) = true) ↔ hasSymAt xu sym kc := by
  simp [hasSymAt, List.any_eq_true, List.mem_range]

/-- `keycodeGet` either reports 0 with no keycode in `[min,max]` holding
`sym`, or returns the ascending-order-first keycode holding `sym`. -/
theorem keycodeGet_cases (xu : XState) (sym : Keysym) :
    (keycodeGet xu sym = 0 ∧
      ∀ kc, xu.minKeycode ≤ kc → kc ≤ xu.maxKeycode → ¬ hasSymAt xu sym kc)
    ∨ (xu.minKeycode ≤ keycodeGet xu sym ∧ keycodeGet xu sym ≤ xu.maxKeycode ∧
       hasSymAt xu sym (keycodeGet xu sym) ∧
       ∀ kc, xu.minKeycode ≤ kc → kc < keycodeGet xu sym →
         ¬ hasSymAt xu sym kc) := by
  cases hf : (List.range' xu.minKeycode (xu.maxKeycode + 1 - xu.minKeycode)).find?
      (fun kc => (List.range xu.keyMap.keysymsPerKeycode).any
        (fun c => keysymGet xu kc c == some sym)) with
  | none =>
    have h0 : keycodeGet xu sym = 0 := by unfold keycodeGet; rw [hf]
    left
    refine ⟨h0, fun kc hk1 hk2 hsym => ?_⟩
    have hfalse := find?_range'_none hf hk1 (by omega)
    have htrue := (anyCol_iff xu sym kc).mpr hsym
    simp [htrue] at hfalse
  | some k =>
    have h0 : keycodeGet xu sym = k := by unfold keycodeGet; rw [hf]
    obtain ⟨h1, h2, h3, h4⟩ := find?_range'_some hf
    right
    rw [h0]
    refine ⟨h1, by omega, (anyCol_iff xu sym k).mp h3, fun kc hk1 hk2 hsym => ?_⟩
    have hfalse := h4 kc hk1 hk2
    have htrue := (anyCol_iff xu sym kc).mpr hsym
    simp [htrue] at hfalse

/-- The `ParseString` loop computes the OR-accumulated modifier mask and,
for the keycode accumulator, keeps the first nonzero resolution. -/
theorem parseLoop_eq (xu : XState) :
    ∀ (parts : List String) (mods kc : Nat),
      parseLoop xu parts mods kc =
        (parts.foldl
          (fun m t => match modMaskOfToken t with
            | some b => m ||| b
            | none => m) mods,
         if kc = 0 then specKeycode xu parts else kc) := by
  intro parts
  induction parts with
  | nil =>
    intro mods kc
    simp only [parseLoop, List.foldl_nil, specKeycode]
    by_cases h : kc = 0 <;> simp [h]
  | cons t rest ih =>
    intro mods kc
    cases hm : modMaskOfToken t with
    | some m =>
      simp only [parseLoop, hm, List.foldl_cons, specKeycode, ih]
    | none =>
      simp only [parseLoop, hm, List.foldl_cons, specKeycode, ih]
      by_cases hkc : kc = 0
      · subst hkc
        by_cases hl : lookupString xu t = 0 <;> simp [hl]
      · simp [hkc]

/-- When every non-modifier token resolves to 0, the loop's keycode is 0. -/
theorem specKeycode_eq_zero (xu : XState) :
    ∀ (parts : List String),
      (∀ t ∈ parts, modMaskOfToken t = none → lookupString xu t = 0) →
      specKeycode xu parts = 0 := by
  intro parts
  induction parts with
  | nil => intro _; rfl
  | cons t rest ih =>
    intro h
    cases hm : modMaskOfToken t with
    | some m => simpa [specKeycode, hm] using ih fun u hu => h u (List.mem_cons_of_mem t hu)
    | none =>
      have hz := h t (List.mem_cons_self t rest) hm
      simpa [specKeycode, hm, hz] using ih fun u hu => h u (List.mem_cons_of_mem t hu)

/-- `modGet` at the first matching slot: the returned mask is
`modifiers[i / keycodesPerModifier]`, which is a nonzero bit whenever the
slot table has the protocol shape (8 rows of `keycodesPerModifier` slots). -/
theorem modGet_at_first_match (xu : XState) (keycode i : Nat)
    (hlen : xu.modMap.keycodes.length = 8 * xu.modMap.keycodesPerModifier)
    (hi : i < xu.modMap.keycodes.length)
    (hmatch : xu.modMap.keycodes.getD i 0 = keycode)
    (hfirst : ∀ j < i, xu.modMap.keycodes.getD j 0 ≠ keycode) :
    modGet xu keycode = modifiers.get? (i / xu.modMap.keycodesPerModifier) ∧
    ∃ v, modifiers.get? (i / xu.modMap.keycodesPerModifier) = some v ∧
      v ≠ 0 := by
  have hper : 0 < xu.modMap.keycodesPerModifier := by
    rcases Nat.eq_zero_or_pos xu.modMap.keycodesPerModifier with h0 | h
    · rw [h0] at hlen; omega
    · exact h
  have hfind : (List.range xu.modMap.keycodes.length).find?
      (fun j => xu.modMap.keycodes.getD j 0 == keycode) = some i := by
    rw [List.range_eq_range']
    refine find?_range'_at (Nat.zero_le i) (by omega) (by simpa using hmatch) ?_
    intro j _ hj
    simpa using hfirst j hj
  have hrow : i / xu.modMap.keycodesPerModifier < 8 := by
    rw [Nat.div_lt_iff_lt_mul hper, Nat.mul_comm]
    omega
  have hbit : ∃ v, modifiers.get? (i / xu.modMap.keycodesPerModifier) =
      some v ∧ v ≠ 0 := by
    have hall : ∀ r < 9, ∃ v, modifiers.get? r = some v ∧ v ≠ 0 := by decide
    exact hall _ (by omega)
  refine ⟨?_, hbit⟩
  unfold modGet
  rw [hfind]
  simp [Nat.pos_iff_ne_zero.mp hper]

/-- A small concrete state used to evaluate the theorems: keycodes 8..9, one
column per keycode, keycode 9 holds keysym 44, the symbol table maps "j" to
44, and the modifier table has 8 rows of 2 slots with keycode 5 bound in the
`lock` row. -/
def xuW : XState :=
  { minKeycode := 8, maxKeycode := 9,
    keyMap := { keysymsPerKeycode := 1, keysyms := [0, 44] },
    modMap := { keycodesPerModifier := 2,
                keycodes := [0, 0, 5, 0, 0, 0, 0, 0, 0, 0, 0, 0, 0, 0, 0, 0] },
    keysymTable := [("j", 44)] }

/-- C1 counterexample: in `ParseString`, a non-modifier token after a failed
one is NOT ignored.  In `xuW`, token "z" resolves to no keycode while "j"
resolves to keycode 9; the claim says "z-j" must parse like "z" alone
(keycode 0), but the code resolves the second token and returns keycode 9. -/
theorem ParseString_second_token_not_ignored :
    ParseString xuW "z-j" = (0, 9, false) ∧
    ParseString xuW "z" = (0, 0, true) ∧
    (ParseString xuW "z-j").2.1 ≠ (ParseString xuW "z").2.1 := by
  refine ⟨by decide, by decide, by decide⟩

/-- C1 (amended): `ParseString` splits on '-'; every token matching a
modifier name case-insensitively ORs that bit into the mask; non-modifier
tokens are resolved in order until one yields a nonzero keycode, and only
the tokens after that first successful resolution are silently ignored (a
non-modifier token whose resolution failed does not block later tokens).
The warning flag fires exactly when the final keycode is 0. -/
theorem ParseString_characterization (xu : XState) (str : String) :
    ParseString xu str =
      (specMask (splitDash str), specKeycode xu (splitDash str),
       specKeycode xu (splitDash str) == 0) := by
  unfold ParseString
  rw [parseLoop_eq]
  simp [specMask]

/-- C2 counterexample: with a symbol table containing only "Return", looking
up "RETURN" fails, contradicting the claim that it succeeds: the title-case
step is Go's `strings.Title`, which leaves all but the first letter
unchanged, so the four attempts are "RETURN", "RETURN", "return", "RETURN",
none of which is "Return". -/
theorem keysymLookup_RETURN_not_found :
    keysymLookup [("Return", 42)] "RETURN" = none := by decide

/-- C2 (amended): `lookupString` tries the name against the symbol table in
this exact four-step order — exact match, Go title-case (first letter of
each word upper-cased, the rest UNCHANGED), lowercase, uppercase — first hit
wins and no fifth form is tried; consequently, for a table containing only
the name "Return", lookups of "return" and "Return" succeed with the
identical symbol, while "RETURN" and "rEtUrN" are not found. -/
theorem keysymLookup_fallback_order (tbl : List (String × Keysym))
    (s : String) :
    keysymLookup tbl s =
      firstSome [tableLookup tbl s, tableLookup tbl (goTitle s),
                 tableLookup tbl (goToLower s), tableLookup tbl (goToUpper s)] ∧
    keysymLookup [("Return", 42)] "return" = some 42 ∧
    keysymLookup [("Return", 42)] "Return" = some 42 ∧
    keysymLookup [("Return", 42)] "RETURN" = none ∧
    keysymLookup [("Return", 42)] "rEtUrN" = none := by
  refine ⟨?_, by decide, by decide, by decide, by decide⟩
  unfold keysymLookup
  cases tableLookup tbl s with
  | some v => rfl
  | none =>
    cases tableLookup tbl (goTitle s) with
    | some v => rfl
    | none =>
      cases tableLookup tbl (goToLower s) with
      | some v => rfl
      | none =>
        cases tableLookup tbl (goToUpper s) with
        | some v => rfl
        | none => rfl

/-- C7: when no token of the binding spec resolves to a keycode, `ParseString`
still returns normally, with keycode 0 and the accumulated modifier mask,
and the warning fires; the failure is never fatal. -/
theorem ParseString_warn_on_no_resolution (xu : XState) (str : String)
    (h : ∀ t ∈ splitDash str, modMaskOfToken t = none → lookupString xu t = 0) :
    ParseString xu str = (specMask (splitDash str), 0, true) := by
  unfold ParseString
  rw [parseLoop_eq]
  simp [specMask, specKeycode_eq_zero xu _ h]

/-- C7 witness: "shift-q" in `xuW` — "q" resolves to nothing, the parse
still returns mask `ModMaskShift`, keycode 0 and the warning. -/
theorem ParseString_warn_on_no_resolution_witness :
    (∀ t ∈ splitDash "shift-q", modMaskOfToken t = none →
      lookupString xuW t = 0) ∧
    ParseString xuW "shift-q" = (specMask (splitDash "shift-q"), 0, true) :=
  ⟨by decide, ParseString_warn_on_no_resolution xuW "shift-q" (by decide)⟩

/-- C6: mapping refresh aborts (panics) if and only if the keyboard-mapping
query or the modifier-mapping query failed; on success it returns exactly
the two fetched tables, never partial state. -/
theorem mapsGet_all_or_nothing (keyRes : Except String KeyboardMapping)
    (modRes : Except String ModifierMapping) :
    (mapsGet keyRes modRes = none ↔
      (∃ e, keyRes = .error e) ∨ (∃ e, modRes = .error e)) ∧
    ∀ km mm, mapsGet keyRes modRes = some (km, mm) →
      keyRes = .ok km ∧ modRes = .ok mm := by
  cases keyRes <;> cases modRes <;> simp [mapsGet]

/-- C6 witness: a failed keyboard-mapping query aborts even when the
modifier-mapping query succeeded. -/
theorem mapsGet_all_or_nothing_witness :
    mapsGet (Except.error "io error") (Except.ok ⟨1, [0, 0]⟩) = none :=
  (mapsGet_all_or_nothing _ _).1.mpr (Or.inl ⟨"io error", rfl⟩)

/-- C3: for a well-formed key map, `keycodeGet` returns 0 when no keycode in
`[min,max]` holds the keysym in any column `< keysymsPerKeycode`, and
otherwise returns the ascending-order-first keycode one of whose columns
holds it. -/
theorem keycodeGet_first_match (xu : XState) (sym : Keysym)
    (hwf : xu.keyMap.keysyms.length =
      (xu.maxKeycode + 1 - xu.minKeycode) * xu.keyMap.keysymsPerKeycode) :
    (keycodeGet xu sym = 0 ∧
      ∀ kc, xu.minKeycode ≤ kc → kc ≤ xu.maxKeycode → ¬ hasSymAt xu sym kc)
    ∨ (xu.minKeycode ≤ keycodeGet xu sym ∧ keycodeGet xu sym ≤ xu.maxKeycode ∧
       hasSymAt xu sym (keycodeGet xu sym) ∧
       ∀ kc, xu.minKeycode ≤ kc → kc < keycodeGet xu sym →
         ¬ hasSymAt xu sym kc) :=
  keycodeGet_cases xu sym

/-- C3 witness: in `xuW`, keysym 44 is found first (and only) at keycode 9. -/
theorem keycodeGet_first_match_witness :
    xuW.keyMap.keysyms.length =
      (xuW.maxKeycode + 1 - xuW.minKeycode) * xuW.keyMap.keysymsPerKeycode ∧
    ((keycodeGet xuW 44 = 0 ∧
       ∀ kc, xuW.minKeycode ≤ kc → kc ≤ xuW.maxKeycode → ¬ hasSymAt xuW 44 kc)
     ∨ (xuW.minKeycode ≤ keycodeGet xuW 44 ∧
        keycodeGet xuW 44 ≤ xuW.maxKeycode ∧
        hasSymAt xuW 44 (keycodeGet xuW 44) ∧
        ∀ kc, xuW.minKeycode ≤ kc → kc < keycodeGet xuW 44 →
          ¬ hasSymAt xuW 44 kc)) :=
  ⟨by decide, keycodeGet_first_match xuW 44 (by decide)⟩

/-- C4: round-trip soundness — applying `keycodeGet` to the keysym stored at
`(c, j)` of a well-formed key map yields a keycode `c'` (not necessarily
`c`) in `[min,max]` some column of which holds that same keysym, and `c'`
is the ascending-order-first such keycode. -/
theorem keycodeGet_roundtrip (xu : XState) (c j : Nat) (sym : Keysym)
    (hwf : xu.keyMap.keysyms.length =
      (xu.maxKeycode + 1 - xu.minKeycode) * xu.keyMap.keysymsPerKeycode)
    (hc1 : xu.minKeycode ≤ c) (hc2 : c ≤ xu.maxKeycode)
    (hj : j < xu.keyMap.keysymsPerKeycode)
    (hsym : keysymGet xu c j = some sym) :
    xu.minKeycode ≤ keycodeGet xu sym ∧ keycodeGet xu sym ≤ xu.maxKeycode ∧
    hasSymAt xu sym (keycodeGet xu sym) ∧
    ∀ kc, xu.minKeycode ≤ kc → kc < keycodeGet xu sym →
      ¬ hasSymAt xu sym kc := by
  rcases keycodeGet_cases xu sym with ⟨_, hnone⟩ | h
  · exact absurd ⟨j, hj, hsym⟩ (hnone c hc1 hc2)
  · exact h

/-- C4 witness: the keysym at `(9, 0)` of `xuW` round-trips to keycode 9. -/
theorem keycodeGet_roundtrip_witness :
    keysymGet xuW 9 0 = some 44 ∧
    (xuW.minKeycode ≤ keycodeGet xuW 44 ∧
     keycodeGet xuW 44 ≤ xuW.maxKeycode ∧
     hasSymAt xuW 44 (keycodeGet xuW 44) ∧
     ∀ kc, xuW.minKeycode ≤ kc → kc < keycodeGet xuW 44 →
       ¬ hasSymAt xuW 44 kc) :=
  ⟨by decide,
   keycodeGet_roundtrip xuW 9 0 44 (by decide) (by decide) (by decide)
     (by decide) (by decide)⟩

/-- C9: under the documented precondition (`min ≤ keycode ≤ max`, column
within range, keysym table of length `(max - min + 1) * keysymsPerKeycode`)
the index computed by `keysymGet` is within bounds, so the out-of-range
(panic) branch is unreachable and a keysym is returned. -/
theorem keysymGet_index_in_bounds (xu : XState) (kc col : Nat)
    (hwf : xu.keyMap.keysyms.length =
      (xu.maxKeycode + 1 - xu.minKeycode) * xu.keyMap.keysymsPerKeycode)
    (h1 : xu.minKeycode ≤ kc) (h2 : kc ≤ xu.maxKeycode)
    (hcol : col < xu.keyMap.keysymsPerKeycode) :
    0 ≤ keysymIndex xu kc col ∧
    (keysymIndex xu kc col).toNat < xu.keyMap.keysyms.length ∧
    (keysymGet xu kc col).isSome = true := by
  have hidx : keysymIndex xu kc col =
      (((kc - xu.minKeycode) * xu.keyMap.keysymsPerKeycode + col : Nat) : Int) := by
    unfold keysymIndex
    have hsub : ((kc : Int) - (xu.minKeycode : Int)) =
        ((kc - xu.minKeycode : Nat) : Int) := by omega
    rw [hsub]
    push_cast
    ring
  have hb : (kc - xu.minKeycode) * xu.keyMap.keysymsPerKeycode + col <
      xu.keyMap.keysyms.length := by
    rw [hwf]
    have hle : (kc - xu.minKeycode + 1) * xu.keyMap.keysymsPerKeycode ≤
        (xu.maxKeycode + 1 - xu.minKeycode) * xu.keyMap.keysymsPerKeycode :=
      Nat.mul_le_mul_right _ (by omega)
    have hexp : (kc - xu.minKeycode + 1) * xu.keyMap.keysymsPerKeycode =
        (kc - xu.minKeycode) * xu.keyMap.keysymsPerKeycode +
          xu.keyMap.keysymsPerKeycode := by ring
    rw [hexp] at hle
    exact Nat.lt_of_lt_of_le (Nat.add_lt_add_left hcol _) hle
  have hpos : 0 ≤ keysymIndex xu kc col := by
    rw [hidx]; exact Int.natCast_nonneg _
  have hlt : (keysymIndex xu kc col).toNat < xu.keyMap.keysyms.length := by
    rw [hidx, Int.toNat_ofNat]; exact hb
  refine ⟨hpos, hlt, ?_⟩
  simp only [keysymGet]
  rw [dif_pos ⟨hpos, hlt⟩]
  rfl

/-- C9 witness: the lookup at `(9, 0)` of `xuW` is in bounds and returns a
keysym. -/
theorem keysymGet_index_in_bounds_witness :
    0 ≤ keysymIndex xuW 9 0 ∧
    (keysymIndex xuW 9 0).toNat < xuW.keyMap.keysyms.length ∧
    (keysymGet xuW 9 0).isSome = true :=
  keysymGet_index_in_bounds xuW 9 0 (by decide) (by decide) (by decide)
    (by decide)

/-- C5: `modGet` scans the slot table in ascending slot order; at the first
slot whose value equals the keycode it returns the bit
`modifiers[slot / keycodesPerModifier]` taken from the fixed order Shift,
Lock, Control, Mod1..Mod5, Any (the same `modifiers` list the diagnostic
dump iterates), and it returns 0 only when no slot matches.  The slot table
is assumed protocol-shaped (8 rows of `keycodesPerModifier` slots) and small
enough (≤ 255 slots) for the source's byte loop counter. -/
theorem modGet_first_slot (xu : XState) (keycode : Nat)
    (hlen : xu.modMap.keycodes.length = 8 * xu.modMap.keycodesPerModifier)
    (hbyte : xu.modMap.keycodes.length ≤ 255) :
    ((∀ i, i < xu.modMap.keycodes.length →
        xu.modMap.keycodes.getD i 0 ≠ keycode) ∧
      modGet xu keycode = some 0)
    ∨ (∃ i, i < xu.modMap.keycodes.length ∧
        xu.modMap.keycodes.getD i 0 = keycode ∧
        (∀ j, j < i → xu.modMap.keycodes.getD j 0 ≠ keycode) ∧
        modGet xu keycode =
          modifiers.get? (i / xu.modMap.keycodesPerModifier) ∧
        modGet xu keycode ≠ some 0 ∧ modGet xu keycode ≠ none) := by
  cases hf : (List.range xu.modMap.keycodes.length).find?
      (fun j => xu.modMap.keycodes.getD j 0 == keycode) with
  | none =>
    have h0 : modGet xu keycode = some 0 := by unfold modGet; rw [hf]
    left
    refine ⟨fun i hi hcontra => ?_, h0⟩
    have hfalse := find?_range'_none
      (by rwa [List.range_eq_range'] at hf) (Nat.zero_le i) (by omega)
    simp at hfalse
    exact hfalse (by simpa using hcontra)
  | some i =>
    obtain ⟨_, h2, h3, h4⟩ :=
      find?_range'_some (by rwa [List.range_eq_range'] at hf)
    right
    have hmatch : xu.modMap.keycodes.getD i 0 = keycode := by simpa using h3
    have hfirst : ∀ j, j < i → xu.modMap.keycodes.getD j 0 ≠ keycode :=
      fun j hj => by simpa using h4 j (Nat.zero_le j) hj
    obtain ⟨heq, v, hv, hvne⟩ :=
      modGet_at_first_match xu keycode i hlen (by omega) hmatch hfirst
    refine ⟨i, by omega, hmatch, hfirst, heq, ?_, ?_⟩
    · rw [heq, hv]; simpa using hvne
    · rw [heq, hv]; simp

/-- C5 witness: keycode 5 is bound at slot 2 of `xuW`'s table, row 1, so the
returned mask is the Lock bit. -/
theorem modGet_first_slot_witness :
    xuW.modMap.keycodes.length = 8 * xuW.modMap.keycodesPerModifier ∧
    (((∀ i, i < xuW.modMap.keycodes.length →
         xuW.modMap.keycodes.getD i 0 ≠ 5) ∧
       modGet xuW 5 = some 0)
     ∨ (∃ i, i < xuW.modMap.keycodes.length ∧
         xuW.modMap.keycodes.getD i 0 = 5 ∧
         (∀ j, j < i → xuW.modMap.keycodes.getD j 0 ≠ 5) ∧
         modGet xuW 5 = modifiers.get? (i / xuW.modMap.keycodesPerModifier) ∧
         modGet xuW 5 ≠ some 0 ∧ modGet xuW 5 ≠ none)) :=
  ⟨by decide, modGet_first_slot xuW 5 (by decide) (by decide)⟩

/-- C8: when the slot table contains an unbound slot (value 0), `modGet` at
keycode 0 returns the modifier bit of the row holding the first unbound
slot — never the `0` "no binding" sentinel — because the scan cannot
distinguish the unbound-slot marker 0 from a genuine keycode argument 0. -/
theorem modGet_zero_hits_unbound_slot (xu : XState) (i : Nat)
    (hlen : xu.modMap.keycodes.length = 8 * xu.modMap.keycodesPerModifier)
    (hbyte : xu.modMap.keycodes.length ≤ 255)
    (hi : i < xu.modMap.keycodes.length)
    (hz : xu.modMap.keycodes.getD i 0 = 0)
    (hfirst : ∀ j, j < i → xu.modMap.keycodes.getD j 0 ≠ 0) :
    modGet xu 0 = modifiers.get? (i / xu.modMap.keycodesPerModifier) ∧
    modGet xu 0 ≠ some 0 ∧ modGet xu 0 ≠ none := by
  obtain ⟨heq, v, hv, hvne⟩ :=
    modGet_at_first_match xu 0 i hlen hi hz hfirst
  refine ⟨heq, ?_, ?_⟩
  · rw [heq, hv]; simpa using hvne
  · rw [heq, hv]; simp

/-- C8 witness: slot 0 of `xuW`'s table is unbound, so `modGet xuW 0` yields
the Shift bit rather than the sentinel. -/
theorem modGet_zero_hits_unbound_slot_witness :
    xuW.modMap.keycodes.getD 0 0 = 0 ∧
    (modGet xuW 0 = modifiers.get? (0 / xuW.modMap.keycodesPerModifier) ∧
     modGet xuW 0 ≠ some 0 ∧ modGet xuW 0 ≠ none) :=
  ⟨by decide,
   modGet_zero_hits_unbound_slot xuW 0 (by decide) (by decide) (by decide)
     (by decide) (fun j hj => absurd hj (Nat.not_lt_zero j))⟩

/-- Slicing as indexing: `(l.drop s).take n` lists `l[s+o]` for `o < n`
whenever the slice is in range. -/
theorem drop_take_eq_map_range {α : Type} (l : List α) (d : α) (s n : Nat)
    (h : s + n ≤ l.length) :
    (l.drop s).take n = (List.range n).map (fun o => l.getD (s + o) d) := by
  apply List.ext_getElem
  · simp only [List.length_take, List.length_drop, List.length_map,
      List.length_range]
    omega
  · intro i h1 h2
    have hi : i < n := by
      simp only [List.length_take, List.length_drop] at h1; omega
    have hsl : s + i < l.length := by omega
    rw [List.getElem_take, List.getElem_drop, List.getElem_map,
      List.getElem_range]
    exact (List.getD_eq_getElem l d hsl).symm

/-- C10: the diagnostic dump iterates exactly the 8 real modifier rows in
fixed order (the wildcard Any row is skipped); row `mmi` lists, in slot
order, the bound keycodes (slot value ≠ 0) among slots
`mmi*kPerMod .. mmi*kPerMod + kPerMod - 1`, skipping unbound slots, each
displayed with the keysym of column 0, falling back to column 1 exactly when
column 0 holds the null symbol 0. -/
theorem XModMap_rows_spec (xu : XState)
    (hlen : xu.modMap.keycodes.length = 8 * xu.modMap.keycodesPerModifier) :
    (XModMap xu).length = 8 ∧
    (∀ mmi, mmi < 8 →
      (XModMap xu).getD mmi ("", []) =
        (niceNames.getD mmi "",
         ((List.range xu.modMap.keycodesPerModifier).map
            (fun o => xu.modMap.keycodes.getD
              (mmi * xu.modMap.keycodesPerModifier + o) 0)).filterMap
           (fun kc => if kc = 0 then none
             else some (kc, xmodmapSym xu kc)))) ∧
    (∀ kc sym, keysymGet xu kc 0 = some sym → sym ≠ 0 →
      xmodmapSym xu kc = some sym) ∧
    (∀ kc, keysymGet xu kc 0 = some 0 →
      xmodmapSym xu kc = keysymGet xu kc 1) := by
  refine ⟨by simp [XModMap, modifiers], ?_, ?_, ?_⟩
  · intro mmi hmmi
    have hbound : mmi * xu.modMap.keycodesPerModifier +
        xu.modMap.keycodesPerModifier ≤ xu.modMap.keycodes.length := by
      have h8 : (mmi + 1) * xu.modMap.keycodesPerModifier ≤
          8 * xu.modMap.keycodesPerModifier :=
        Nat.mul_le_mul_right _ (by omega)
      have hexp : (mmi + 1) * xu.modMap.keycodesPerModifier =
          mmi * xu.modMap.keycodesPerModifier +
            xu.modMap.keycodesPerModifier := by ring
      rw [hexp] at h8
      omega
    have hget : (XModMap xu).getD mmi ("", []) =
        (niceNames.getD mmi "", xmodmapRow xu mmi) := by
      unfold XModMap
      rw [List.getD_eq_getElem _ _ (by simpa [modifiers] using hmmi)]
      rw [List.getElem_map, List.getElem_range]
    rw [hget]
    simp only [xmodmapRow]
    rw [drop_take_eq_map_range _ 0 _ _ hbound]
  · intro kc sym hks hne
    unfold xmodmapSym
    rw [hks]
    simp [hne]
  · intro kc hks
    unfold xmodmapSym
    rw [hks]
    simp

/-- C10 witness: in `xuW`, the dump has 8 rows and row 1 (`lock`) lists the
single bound keycode 5 with its displayed symbol. -/
theorem XModMap_rows_spec_witness :
    xuW.modMap.keycodes.length = 8 * xuW.modMap.keycodesPerModifier ∧
    (XModMap xuW).length = 8 ∧
    (XModMap xuW).getD 1 ("", []) =
      (niceNames.getD 1 "",
       ((List.range xuW.modMap.keycodesPerModifier).map
          (fun o => xuW.modMap.keycodes.getD
            (1 * xuW.modMap.keycodesPerModifier + o) 0)).filterMap
         (fun kc => if kc = 0 then none
           else some (kc, xmodmapSym xuW kc))) :=
  ⟨by decide, (XModMap_rows_spec xuW (by decide)).1,
   (XModMap_rows_spec xuW (by decide)).2.1 1 (by decide)⟩

end Keybind
